import Mathlib

/-!
Verification of the reactive provider core of a SolidJS starter template:
theme/style merging (`src/providers/theme.tsx`), locale dictionary
flattening and translation (`src/providers/locale.tsx`), color-scheme and
app-state hooks (`src/AppState.tsx`, `src/providers/color-scheme.tsx`),
and the web-storage bridge (`src/lib/storage.ts`).

JavaScript objects with string keys are embedded as insertion-ordered
association lists `List (String × α)`; JavaScript property read, property
write, object spread and `Object.fromEntries` are embedded below as
`jsGet`, `jsSet`, `jsSpread` and `jsFromEntries`.  `undefined` is embedded
as `Option.none`, and a function that may throw is embedded as a function
into `Except`.
-/

namespace Solid

/-- JavaScript property read `o[k]` on an object embedded as an
insertion-ordered association list: the first (unique, in a real JS object)
entry with key `k`, or `undefined` (`none`). -/
def jsGet {α : Type} (o : List (String × α)) (k : String) : Option α :=
  (o.find? (fun e => e.1 = k)).map (·.2)

/-- JavaScript property write `o[k] = v`: overwrite in place when the key
exists (keeping its position, as JS objects keep the first-insertion order
of a key), otherwise append the new entry at the end. -/
def jsSet {α : Type} (o : List (String × α)) (k : String) (v : α) :
    List (String × α) :=
  if o.any (fun e => e.1 = k) then
    o.map (fun e => if e.1 = k then (k, v) else e)
  else
    o ++ [(k, v)]

/-- JavaScript object spread `{...o, ...entries}`: write every entry of the
second list into `o`, in order. -/
def jsSpread {α : Type} (o u : List (String × α)) : List (String × α) :=
  u.foldl (fun acc e => jsSet acc e.1 e.2) o

/-- `Object.fromEntries(entries)`: build an object by writing the entries
into an empty object in order (later duplicates overwrite earlier ones,
which keep their position). -/
def jsFromEntries {α : Type} (l : List (String × α)) : List (String × α) :=
  jsSpread [] l

/-- `[a, b].join(' ')` where `a` may be `undefined`: JS `Array.prototype.join`
turns `undefined` elements into the empty string, so the result is
`String(a) + " " + b` with `String(undefined) = ""`. -/
def jsJoinPair (a : Option String) (b : String) : String :=
  a.getD "" ++ " " ++ b

/-! ## Theme provider: `mergeStyles` (src/providers/theme.tsx, lines 43-54) -/

/-- `Styles`: maps user-defined CSS class names to scoped class names. -/
abbrev Styles := List (String × String)

/-- `Theme`: maps namespaces to scoped styles. -/
abbrev Theme := List (String × Styles)

/-- One step of the reduce inside `mergeStyles`:
`{...merged, ...Object.fromEntries(Object.entries(current).map(([key, value])
 => [key, [merged[key], value].join(' ')]))}`. -/
def mergeStep (merged current : Styles) : Styles :=
  jsSpread merged
    (jsFromEntries (current.map (fun e => (e.1, jsJoinPair (jsGet merged e.1) e.2))))

/-- `mergeStyles(styles)`: `styles.reduce(mergeStep, {})`
(src/providers/theme.tsx lines 43-54). -/
def mergeStyles (styles : List Styles) : Styles :=
  styles.foldl mergeStep []

/-! ### Association-list lemmas about the JS object embedding -/

theorem jsGet_nil {α : Type} (k : String) : jsGet ([] : List (String × α)) k = none := rfl

theorem jsGet_eq_none_iff {α : Type} {o : List (String × α)} {k : String} :
    jsGet o k = none ↔ ∀ e ∈ o, e.1 ≠ k := by
  simp [jsGet, List.find?_eq_none]

theorem jsGet_eq_some_elim {α : Type} {o : List (String × α)} {k : String} {v : α}
    (h : jsGet o k = some v) : (k, v) ∈ o := by
  simp only [jsGet, Option.map_eq_some'] at h
  obtain ⟨e, he, hv⟩ := h
  have hmem := List.mem_of_find?_eq_some he
  have hk := List.find?_some he
  simp only [decide_eq_true_eq] at hk
  subst hv; subst hk
  exact hmem

theorem jsGet_jsSet_self {α : Type} (o : List (String × α)) (k : String) (v : α) :
    jsGet (jsSet o k v) k = some v := by
  simp only [jsSet, jsGet]
  split
  · next hany =>
    rw [List.find?_map]
    have hpf : ((fun e : String × α => decide (e.1 = k)) ∘
        (fun e : String × α => if e.1 = k then (k, v) else e)) =
        fun e : String × α => decide (e.1 = k) := by
      funext e
      by_cases h : e.1 = k <;> simp [h]
    rw [hpf]
    simp only [List.any_eq_true, decide_eq_true_eq] at hany
    obtain ⟨e, he, hk⟩ := hany
    have : (List.find? (fun e : String × α => decide (e.1 = k)) o).isSome := by
      rw [List.find?_isSome]
      exact ⟨e, he, by simpa using hk⟩
    obtain ⟨e₀, he₀⟩ := Option.isSome_iff_exists.mp this
    have hk₀ : e₀.1 = k := by simpa using List.find?_some he₀
    simp [he₀, hk₀]
  · rw [List.find?_append]
    have hnone : List.find? (fun e : String × α => decide (e.1 = k)) o = none := by
      next hany =>
      rw [List.find?_eq_none]
      intro x hx
      simp only [decide_eq_true_eq]
      intro hxk
      exact hany (List.any_eq_true.mpr ⟨x, hx, by simpa using hxk⟩)
    simp [hnone]

theorem jsGet_jsSet_of_ne {α : Type} (o : List (String × α)) {k k' : String} (v : α)
    (h : k' ≠ k) : jsGet (jsSet o k v) k' = jsGet o k' := by
  simp only [jsSet, jsGet]
  split
  · rw [List.find?_map]
    have hpf : ((fun e : String × α => decide (e.1 = k')) ∘
        (fun e : String × α => if e.1 = k then (k, v) else e)) =
        fun e : String × α => decide (e.1 = k') := by
      funext e
      by_cases hek : e.1 = k
      · simp [hek, Ne.symm h]
      · simp [hek]
    rw [hpf]
    cases hfind : List.find? (fun e : String × α => decide (e.1 = k')) o with
    | none => simp
    | some e₀ =>
      have hk₀ : e₀.1 = k' := by simpa using List.find?_some hfind
      have : e₀.1 ≠ k := hk₀ ▸ h
      simp [this]
  · rw [List.find?_append]
    have : List.find? (fun e : String × α => decide (e.1 = k')) [(k, v)] = none := by
      simp [List.find?, Ne.symm h]
    simp [this]

theorem jsGet_jsSpread_of_not_key {α : Type} {u : List (String × α)} {k : String}
    (h : ∀ e ∈ u, e.1 ≠ k) (o : List (String × α)) :
    jsGet (jsSpread o u) k = jsGet o k := by
  induction u generalizing o with
  | nil => rfl
  | cons e u' ih =>
    have he : e.1 ≠ k := h e (List.mem_cons_self e u')
    have h' : ∀ e' ∈ u', e'.1 ≠ k := fun e' he' => h e' (List.mem_cons_of_mem e he')
    show jsGet (jsSpread (jsSet o e.1 e.2) u') k = jsGet o k
    rw [ih h' (jsSet o e.1 e.2), jsGet_jsSet_of_ne o e.2 (Ne.symm he)]

theorem mem_of_mem_jsSet {α : Type} {o : List (String × α)} {k : String} {v : α}
    {x : String × α} (hx : x ∈ jsSet o k v) : x ∈ o ∨ x = (k, v) := by
  simp only [jsSet] at hx
  split at hx
  · obtain ⟨e, he, hfe⟩ := List.mem_map.mp hx
    by_cases hek : e.1 = k
    · right; simp only [hek, if_pos] at hfe; exact hfe.symm
    · left
      simp only [hek, if_neg, ite_false] at hfe
      exact hfe ▸ he
  · rcases List.mem_append.mp hx with h | h
    · exact Or.inl h
    · right; simpa using h

theorem mem_of_mem_jsSpread {α : Type} {u : List (String × α)} {x : String × α} :
    ∀ {o : List (String × α)}, x ∈ jsSpread o u → x ∈ o ∨ x ∈ u := by
  induction u with
  | nil => intro o h; exact Or.inl h
  | cons e u' ih =>
    intro o h
    rcases @ih (jsSet o e.1 e.2) h with h' | h'
    · rcases mem_of_mem_jsSet h' with h'' | h''
      · exact Or.inl h''
      · exact Or.inr (h'' ▸ List.mem_cons_self e u')
    · exact Or.inr (List.mem_cons_of_mem e h')

theorem mem_of_mem_jsFromEntries {α : Type} {l : List (String × α)} {x : String × α}
    (hx : x ∈ jsFromEntries l) : x ∈ l := by
  rcases mem_of_mem_jsSpread hx with h | h
  · cases h
  · exact h

theorem jsSet_cons_of_ne {α : Type} (hd : String × α) (o : List (String × α))
    {k : String} (v : α) (h : k ≠ hd.1) :
    jsSet (hd :: o) k v = hd :: jsSet o k v := by
  simp only [jsSet, List.any_cons]
  have hdk : (decide (hd.1 = k)) = false := by simpa using Ne.symm h
  simp only [hdk, Bool.false_or]
  split
  · simp [Ne.symm h]
  · rfl

theorem jsSpread_cons_of_not_key {α : Type} {u : List (String × α)} {hd : String × α}
    (h : ∀ e ∈ u, e.1 ≠ hd.1) (o : List (String × α)) :
    jsSpread (hd :: o) u = hd :: jsSpread o u := by
  induction u generalizing o with
  | nil => rfl
  | cons e u' ih =>
    have he : e.1 ≠ hd.1 := h e (List.mem_cons_self e u')
    have h' : ∀ e' ∈ u', e'.1 ≠ hd.1 := fun e' he' => h e' (List.mem_cons_of_mem e he')
    show jsSpread (jsSet (hd :: o) e.1 e.2) u' = hd :: jsSpread (jsSet o e.1 e.2) u'
    rw [jsSet_cons_of_ne hd o e.2 he, ih h' (jsSet o e.1 e.2)]

theorem jsFromEntries_of_nodup_keys {α : Type} {l : List (String × α)}
    (h : (l.map Prod.fst).Nodup) : jsFromEntries l = l := by
  induction l with
  | nil => rfl
  | cons hd tl ih =>
    simp only [List.map_cons, List.nodup_cons] at h
    obtain ⟨hhd, htl⟩ := h
    have hkeys : ∀ e ∈ tl, e.1 ≠ hd.1 := by
      intro e he hek
      exact hhd (hek ▸ List.mem_map_of_mem Prod.fst he)
    show jsSpread (jsSet [] hd.1 hd.2) tl = hd :: tl
    have hset : jsSet ([] : List (String × α)) hd.1 hd.2 = [hd] := by
      simp [jsSet]
    rw [hset, show [hd] = hd :: ([] : List (String × α)) from rfl,
      jsSpread_cons_of_not_key hkeys []]
    exact congrArg (hd :: ·) (ih htl)

theorem jsGet_jsSpread_of_mem_nodup {α : Type} {u : List (String × α)} {k : String}
    {v : α} (hnd : (u.map Prod.fst).Nodup) (hmem : (k, v) ∈ u) :
    ∀ o : List (String × α), jsGet (jsSpread o u) k = some v := by
  induction u with
  | nil => cases hmem
  | cons e u' ih =>
    intro o
    simp only [List.map_cons, List.nodup_cons] at hnd
    obtain ⟨hhd, htl⟩ := hnd
    rcases List.mem_cons.mp hmem with h | h
    · have hk : e.1 = k := by rw [← h]
      have hv : e.2 = v := by rw [← h]
      have hkeys : ∀ e' ∈ u', e'.1 ≠ k := by
        intro e' he' hek
        exact hhd (hk ▸ hek ▸ List.mem_map_of_mem Prod.fst he')
      show jsGet (jsSpread (jsSet o e.1 e.2) u') k = some v
      rw [jsGet_jsSpread_of_not_key hkeys (jsSet o e.1 e.2), hk, hv,
        jsGet_jsSet_self]
    · exact ih htl h (jsSet o e.1 e.2)

/-- Joining with an undefined accumulator entry yields a leading space:
`[undefined, v].join(' ') = " " + v`. -/
theorem jsJoinPair_none (v : String) : jsJoinPair none v = " " ++ v := by
  show ("" : String) ++ " " ++ v = " " ++ v
  rw [show ("" : String) ++ " " = " " from rfl]

theorem keys_mergeStep_arg {merged current : Styles} :
    ((current.map (fun e => (e.1, jsJoinPair (jsGet merged e.1) e.2))).map Prod.fst) =
      current.map Prod.fst := by
  rw [List.map_map]; rfl

theorem jsGet_mergeStep_of_none {merged current : Styles} {k : String}
    (h : jsGet current k = none) :
    jsGet (mergeStep merged current) k = jsGet merged k := by
  have hkeys : ∀ e ∈ jsFromEntries
      (current.map (fun e => (e.1, jsJoinPair (jsGet merged e.1) e.2))), e.1 ≠ k := by
    intro x hx
    have hx' := mem_of_mem_jsFromEntries hx
    obtain ⟨e, he, hfe⟩ := List.mem_map.mp hx'
    have : e.1 ≠ k := (jsGet_eq_none_iff.mp h) e he
    rw [← hfe]
    exact this
  exact jsGet_jsSpread_of_not_key hkeys merged

theorem jsGet_mergeStep_of_some {merged current : Styles} {k v : String}
    (hnd : (current.map Prod.fst).Nodup) (hmerged : jsGet merged k = none)
    (hcur : jsGet current k = some v) :
    jsGet (mergeStep merged current) k = some (" " ++ v) := by
  have hmem : (k, v) ∈ current := jsGet_eq_some_elim hcur
  have hmem' : (k, jsJoinPair (jsGet merged k) v) ∈
      current.map (fun e => (e.1, jsJoinPair (jsGet merged e.1) e.2)) :=
    List.mem_map_of_mem _ hmem
  rw [hmerged, jsJoinPair_none] at hmem'
  have hnd' : ((current.map
      (fun e => (e.1, jsJoinPair (jsGet merged e.1) e.2))).map Prod.fst).Nodup := by
    rw [keys_mergeStep_arg]; exact hnd
  unfold mergeStep
  rw [jsFromEntries_of_nodup_keys hnd']
  exact jsGet_jsSpread_of_mem_nodup hnd' hmem' merged

theorem jsGet_foldl_mergeStep_of_all_none {l : List Styles} {k : String}
    (h : ∀ m ∈ l, jsGet m k = none) :
    ∀ acc : Styles, jsGet (l.foldl mergeStep acc) k = jsGet acc k := by
  induction l with
  | nil => intro acc; rfl
  | cons m l' ih =>
    intro acc
    have hm : jsGet m k = none := h m (List.mem_cons_self m l')
    have h' : ∀ m' ∈ l', jsGet m' k = none := fun m' hm' => h m' (List.mem_cons_of_mem m hm')
    show jsGet (l'.foldl mergeStep (mergeStep acc m)) k = jsGet acc k
    rw [ih h' (mergeStep acc m), jsGet_mergeStep_of_none hm]

/-! ### Claim C1 -/

/-- C1 (counterexample): the claim states that a key present in only one of
the supplied maps passes through unchanged and that
`mergeStyles([{a:"x"}, {a:"y", b:"z"}])` equals `{a: "x y", b: "z"}`.  In the
code, `[merged[key], value].join(' ')` turns the `undefined` accumulator
entry into an empty string, so every key receives a leading space when it is
first introduced: the result is `{a: " x y", b: " z"}`. -/
theorem mergeStyles_example_counterexample :
    mergeStyles [[("a", "x")], [("a", "y"), ("b", "z")]]
        = [("a", " x y"), ("b", " z")] ∧
      mergeStyles [[("a", "x")], [("a", "y"), ("b", "z")]]
        ≠ [("a", "x y"), ("b", "z")] := by
  exact ⟨rfl, by decide⟩

/-- C1 (amended): for every list of Styles maps, a key present in only one of
the supplied maps (whose keys are unique, as in a JS object) appears in the
merged result with a single leading space prepended to its value, because
`join(' ')` renders the absent accumulator entry as the empty string; in
particular `mergeStyles([{a:"x"}, {a:"y", b:"z"}])` equals
`{a: " x y", b: " z"}`. -/
theorem mergeStyles_single_source_key (l1 l2 : List Styles) (m : Styles) (k v : String)
    (h1 : ∀ m' ∈ l1, jsGet m' k = none) (h2 : ∀ m' ∈ l2, jsGet m' k = none)
    (hm : jsGet m k = some v) (hnd : (m.map Prod.fst).Nodup) :
    jsGet (mergeStyles (l1 ++ m :: l2)) k = some (" " ++ v) := by
  unfold mergeStyles
  rw [show l1 ++ m :: l2 = (l1 ++ [m]) ++ l2 by simp, List.foldl_append,
    List.foldl_append]
  rw [jsGet_foldl_mergeStep_of_all_none h2]
  have hbase : jsGet (List.foldl mergeStep ([] : Styles) l1) k = none := by
    rw [jsGet_foldl_mergeStep_of_all_none h1]; rfl
  exact jsGet_mergeStep_of_some hnd hbase hm

/-- C1 (witness): key `"b"` is present only in the second map of the example,
and the merged value carries the leading space. -/
theorem mergeStyles_single_source_key_witness :
    jsGet (mergeStyles [[("a", "x")], [("a", "y"), ("b", "z")]]) "b"
      = some (" " ++ "z") :=
  mergeStyles_single_source_key [[("a", "x")]] [] [("a", "y"), ("b", "z")] "b" "z"
    (by decide) (by decide) (by decide) (by decide)

/-! ## Theme provider: `normalizeClasses` (src/providers/theme.tsx, lines 79-105) -/

/-- `Classes`: a collection of CSS classes as string, array, object or
undefined value (src/providers/theme.tsx lines 25-29). -/
inductive Classes where
  | str (s : String)
  | arr (l : List Classes)
  | obj (m : List (String × Bool))
  | undef
deriving Repr

/-- Accumulator-based first-occurrence deduplication: the JS idiom
`[...new Set(list)]` keeps the first occurrence of each element, in order. -/
def jsDedupGo (seen : List String) : List String → List String
  | [] => []
  | x :: xs => if x ∈ seen then jsDedupGo seen xs else x :: jsDedupGo (x :: seen) xs

/-- `[...new Set(list)]`. -/
def jsDedup (l : List String) : List String := jsDedupGo [] l

/-- Character-level splitter: splits at every character satisfying `p`,
keeping empty pieces, as `String.prototype.split` does at every match. -/
def splitChars (p : Char → Bool) : List Char → List (List Char)
  | [] => [[]]
  | c :: rest =>
    if p c then [] :: splitChars p rest
    else match splitChars p rest with
      | [] => [[c]]
      | t :: ts => (c :: t) :: ts

/-- `s.split(/\s+/u)`: split on whitespace.  The regex collapses whitespace
runs while this model splits at each whitespace character, producing extra
empty pieces inside runs; the code always filters out empty pieces right
after splitting, after which the two agree. -/
def jsSplitWs (s : String) : List String :=
  (splitChars (fun c => c.isWhitespace) s.toList).map (fun t => String.mk t)

/-! `rank` is a termination measure for `normalizeClasses`: the object
branch recurses into a freshly built array of strings, so plain structural
recursion does not apply. -/

mutual

def rank : Classes → Nat
  | .undef => 0
  | .str _ => 0
  | .arr l => 1 + rankList l
  | .obj m => 2 + m.length

def rankList : List Classes → Nat
  | [] => 0
  | c :: cs => rank c + 1 + rankList cs

end

theorem rankList_map_str (u : List (String × Bool)) :
    rankList (u.map (fun kv => Classes.str kv.1)) = u.length := by
  induction u with
  | nil => rfl
  | cons kv u' ih => simp [rankList, rank, ih]; omega

/-! `normalizeClasses(classes)` (src/providers/theme.tsx lines 79-105):

* falsy input (`undefined`, or the empty string) yields `[]`;
* a string is split on whitespace, empty pieces are dropped, and the result
  is deduplicated;
* an array is normalized element-wise, flattened, filtered of falsy (empty)
  entries and deduplicated;
* an object recurses on the array of its keys whose value is truthy.

`normalizeClassesList` is the element-wise recursion
`classes.map(normalizeClasses)` of the array branch. -/

mutual

def normalizeClasses : Classes → List String
  | .undef => []
  | .str s =>
      if s = "" then []
      else jsDedup ((jsSplitWs s).filter (fun t => t ≠ ""))
  | .arr l => jsDedup ((normalizeClassesList l).flatten.filter (fun t => t ≠ ""))
  | .obj m =>
      normalizeClasses (.arr ((m.filter (fun kv => kv.2)).map (fun kv => .str kv.1)))
termination_by c => rank c
decreasing_by
  all_goals simp [rank, rankList, rankList_map_str]
  all_goals
    (have hfl := List.length_filter_le (fun kv : String × Bool => kv.2) m
     omega)

def normalizeClassesList : List Classes → List (List String)
  | [] => []
  | c :: cs => normalizeClasses c :: normalizeClassesList cs
termination_by l => rankList l
decreasing_by
  all_goals simp [rank, rankList]
  all_goals try omega

end

/-! ### Deduplication lemmas -/

theorem jsDedupGo_nodup_and_disjoint (l : List String) :
    ∀ seen, (jsDedupGo seen l).Nodup ∧ ∀ x ∈ jsDedupGo seen l, x ∉ seen := by
  induction l with
  | nil => intro seen; exact ⟨List.nodup_nil, by intro x hx; cases hx⟩
  | cons x xs ih =>
    intro seen
    by_cases hx : x ∈ seen
    · simpa [jsDedupGo, hx] using ih seen
    · obtain ⟨ihnd, ihdisj⟩ := ih (x :: seen)
      refine ⟨?_, ?_⟩
      · simp only [jsDedupGo, hx, if_neg, ite_false, List.nodup_cons]
        exact ⟨fun hmem => ihdisj x hmem (List.mem_cons_self x seen), ihnd⟩
      · intro y hy
        simp only [jsDedupGo, hx, if_neg, ite_false, List.mem_cons] at hy
        rcases hy with rfl | hy
        · exact hx
        · exact fun hys => ihdisj y hy (List.mem_cons_of_mem x hys)

theorem jsDedup_nodup (l : List String) : (jsDedup l).Nodup :=
  (jsDedupGo_nodup_and_disjoint l []).1

theorem mem_of_mem_jsDedupGo {l : List String} {x : String} :
    ∀ {seen}, x ∈ jsDedupGo seen l → x ∈ l := by
  induction l with
  | nil => intro seen h; cases h
  | cons y ys ih =>
    intro seen h
    by_cases hy : y ∈ seen
    · simp only [jsDedupGo, hy, if_pos] at h
      exact List.mem_cons_of_mem y (ih h)
    · simp only [jsDedupGo, hy, if_neg, ite_false, List.mem_cons] at h
      rcases h with rfl | h
      · exact List.mem_cons_self x ys
      · exact List.mem_cons_of_mem y (ih h)

theorem mem_of_mem_jsDedup {l : List String} {x : String} (h : x ∈ jsDedup l) :
    x ∈ l :=
  mem_of_mem_jsDedupGo h

theorem jsDedup_filter_prop (xs : List String) :
    (jsDedup (xs.filter (fun t => t ≠ ""))).Nodup ∧
      ∀ t ∈ jsDedup (xs.filter (fun t => t ≠ "")), t ≠ "" := by
  refine ⟨jsDedup_nodup _, fun t ht => ?_⟩
  have := mem_of_mem_jsDedup ht
  simpa using (List.mem_filter.mp this).2

/-! ### Claim C8 -/

/-- C8: `normalizeClasses` on the three specified inputs yields `["a"]`, `[]`
and `["a","b"]`, and for every `Classes` input the result is a duplicate-free
list containing no empty token (falsy/empty values contribute nothing). -/
theorem normalizeClasses_claim :
    (normalizeClasses (.obj [("a", true), ("b", false)]) = ["a"] ∧
      normalizeClasses .undef = [] ∧
      normalizeClasses (.str "a b a") = ["a", "b"]) ∧
    ∀ c : Classes, (normalizeClasses c).Nodup ∧ ∀ t ∈ normalizeClasses c, t ≠ "" := by
  refine ⟨⟨by simp [normalizeClasses, normalizeClassesList]; rfl,
    by simp [normalizeClasses],
    by simp [normalizeClasses]; rfl⟩, fun c => ?_⟩
  match c with
  | .undef =>
    have h : normalizeClasses Classes.undef = [] := by simp [normalizeClasses]
    rw [h]
    exact ⟨List.nodup_nil, by intro t ht; cases ht⟩
  | .str s =>
    by_cases hs : s = ""
    · simp [normalizeClasses, hs]
    · simpa [normalizeClasses, hs] using jsDedup_filter_prop (jsSplitWs s)
  | .arr l =>
    simpa [normalizeClasses] using
      jsDedup_filter_prop (normalizeClassesList l).flatten
  | .obj m =>
    simpa [normalizeClasses] using
      jsDedup_filter_prop
        (normalizeClassesList
          ((m.filter (fun kv => kv.2)).map (fun kv => Classes.str kv.1))).flatten

/-- C8 (witness): on the concrete input `"x y"` the result is duplicate-free
and its member `"x"` is a non-empty token. -/
theorem normalizeClasses_claim_witness :
    (normalizeClasses (Classes.str "x y")).Nodup ∧ ("x" : String) ≠ "" :=
  ⟨(normalizeClasses_claim.2 (Classes.str "x y")).1,
    (normalizeClasses_claim.2 (Classes.str "x y")).2 "x"
      (by simp only [normalizeClasses]; decide)⟩

/-! ## Theme provider: `useStyles` (src/providers/theme.tsx, lines 142-158) -/

/-- `array.join(' ')` on an array that may contain `undefined` entries:
`undefined` is rendered as the empty string. -/
def jsJoinList (l : List (Option String)) : String :=
  String.intercalate " " (l.map (fun o => o.getD ""))

/-- The memo inside `useStyles`:
`mergeStyles([defaultStyles, theme()?.[namespace]].filter((v) => v))`.
`filter(v => v)` drops the `undefined` entries (a Styles object, even empty,
is truthy). -/
def mergedStylesFor (theme : Option Theme) (ns : String)
    (defaultStyles : Option Styles) : Styles :=
  mergeStyles ([defaultStyles, theme.bind (fun t => jsGet t ns)].filterMap id)

/-- The styling function returned by `useStyles(namespace, defaultStyles)`
applied to a `Classes` value, for a mounted theme accessor returning `theme`:
`normalizeClasses(classes).reduce((merged, className) =>
 [...merged, styles()[className]], []).join(' ')`. -/
def useStylesFn (theme : Option Theme) (ns : String) (defaultStyles : Option Styles)
    (classes : Classes) : String :=
  jsJoinList
    ((normalizeClasses classes).foldl
      (fun merged className =>
        merged ++ [jsGet (mergedStylesFor theme ns defaultStyles) className])
      [])

theorem foldl_append_singleton {α : Type} (f : α → Option String) (l : List α) :
    ∀ acc : List (Option String),
      l.foldl (fun acc x => acc ++ [f x]) acc = acc ++ l.map f := by
  induction l with
  | nil => intro acc; simp
  | cons x xs ih => intro acc; simp [ih]

/-! ### Claim C2 -/

/-- C2 (counterexample): the claim states that with theme
`{Hello: {content: "x1"}}` and defaultStyles `{content: "d1"}`,
`styles("content")` returns `"d1 x1"`.  The merge gives the key `content`
the value `" d1 x1"` (leading space from the `undefined` accumulator entry
in `join(' ')`), so the styling function returns `" d1 x1"`. -/
theorem useStyles_scenario_counterexample :
    useStylesFn (some [("Hello", [("content", "x1")])]) "Hello"
        (some [("content", "d1")]) (.str "content") = " d1 x1" ∧
      useStylesFn (some [("Hello", [("content", "x1")])]) "Hello"
        (some [("content", "d1")]) (.str "content") ≠ "d1 x1" := by
  have h : useStylesFn (some [("Hello", [("content", "x1")])]) "Hello"
      (some [("content", "d1")]) (.str "content") = " d1 x1" := by
    simp only [useStylesFn, normalizeClasses]
    rfl
  exact ⟨h, by rw [h]; decide⟩

/-- C2 (amended): the styling function normalizes its Classes input, merges
defaultStyles with the theme's styles for the namespace (in that order),
maps each normalized class name through the merged map — a class name with
no mapping contributes an empty token, never the literal string
`"undefined"` — and joins the resolved tokens with a single space; with
theme `{Hello: {content: "x1"}}` and defaultStyles `{content: "d1"}`,
`styles("content")` returns `" d1 x1"` (the merge prepends one leading
space). -/
theorem useStyles_resolution :
    (∀ (theme : Option Theme) (ns : String) (ds : Option Styles) (classes : Classes),
      useStylesFn theme ns ds classes =
        String.intercalate " "
          ((normalizeClasses classes).map
            (fun c => (jsGet (mergedStylesFor theme ns ds) c).getD ""))) ∧
    useStylesFn (some [("Hello", [("content", "x1")])]) "Hello"
      (some [("content", "d1")]) (.str "content") = " d1 x1" := by
  constructor
  · intro theme ns ds classes
    rw [useStylesFn, foldl_append_singleton, jsJoinList]
    simp [List.map_map]
    rfl
  · simp only [useStylesFn, normalizeClasses]
    rfl

/-! ## Locale provider (src/providers/locale.tsx)

A raw dictionary value is a string leaf, a function leaf, a nested object,
or `null`.  A translation parameter bag is embedded as an association list
of strings; translation functions receive it as an optional argument
(`(params: any) => string` called as `?.(params)` with possibly-undefined
`params`). -/

abbrev Params := List (String × String)

/-- `Translation`: message translation `(params: any) => string`. -/
abbrev Translation := Option Params → String

/-- Raw dictionary value: `string | Function | object | null`. -/
inductive RawValue where
  | str (s : String)
  | func (f : Option Params → String)
  | obj (entries : List (String × RawValue))
  | null

/-- `Dictionary`: flat dictionary, mapping keys to translations. -/
abbrev Dictionary := List (String × Translation)

/-- `typeof value === 'object'` holds for objects and for `null`. -/
def typeofIsObject : RawValue → Bool
  | .obj _ => true
  | .null => true
  | _ => false

/-- A terminal node of a raw dictionary: a value whose `typeof` is not
`'object'` (here: a string or a function). -/
def isTerminal : RawValue → Bool
  | .str _ => true
  | .func _ => true
  | _ => false

/-- `createTranslation(translation)` (src/providers/locale.tsx lines 47-51):
a function is used as-is; any other value is wrapped as a constant function
returning its template-string rendering (a string renders as itself; the
`null` and object branches are unreachable from `createDictionary`, which
routes `typeof 'object'` values to the subtree branch). -/
def createTranslation : RawValue → Translation
  | .func f => f
  | .str s => fun _ => s
  | .null => fun _ => "null"
  | .obj _ => fun _ => "[object Object]"

/-- The entry traversal of `createDictionary(dictionary, separator)`
(src/providers/locale.tsx lines 61-77), producing the flat entry list
before `Object.fromEntries`:

* a value with `typeof 'object'` is a subtree: the code recurses via
  `createDictionary(value)` — passing NO separator argument, so the
  recursive call uses the default `"."` — and re-keys each resulting entry
  as `[key, k].join(separator)`;
* `null` also has `typeof 'object'`, and `Object.entries(null)` throws a
  TypeError, embedded as `Except.error`;
* a terminal value becomes the entry `[key, createTranslation(value)]`.

The JS code applies `Object.fromEntries` at every recursion level before
the parent re-lists the object with `Object.entries`; this model keeps the
raw entry list and applies `jsFromEntries` once at the top
(`createDictionary` below).  The two agree: per-level deduplication keeps
the first position and last value of each key within one subtree's
contribution, which is exactly what the single final `jsFromEntries` pass
computes. -/
def flattenEntries (separator : String) :
    List (String × RawValue) → Except Unit (List (String × Translation))
  | [] => .ok []
  | (key, .obj sub) :: rest =>
      match flattenEntries "." sub with
      | .error e => .error e
      | .ok d =>
        match flattenEntries separator rest with
        | .error e => .error e
        | .ok r => .ok ((d.map (fun kv => (key ++ separator ++ kv.1, kv.2))) ++ r)
  | (_, .null) :: _ => .error ()
  | (key, v) :: rest =>
      match flattenEntries separator rest with
      | .error e => .error e
      | .ok r => .ok ((key, createTranslation v) :: r)

/-- `createDictionary(dictionary, separator = '.')`: flatten the entries and
build the result object. -/
def createDictionary (dictionary : List (String × RawValue))
    (separator : String := ".") : Except Unit Dictionary :=
  (flattenEntries separator dictionary).map jsFromEntries

/-- `null` occurs somewhere as a value in the raw dictionary tree. -/
def containsNull : List (String × RawValue) → Bool
  | [] => false
  | (_, .obj sub) :: rest => containsNull sub || containsNull rest
  | (_, .null) :: _ => true
  | _ :: rest => containsNull rest

/-- `HasPath entries path v`: descending from `entries` through nested
objects along `path` reaches the terminal value `v`. -/
inductive HasPath : List (String × RawValue) → List String → RawValue → Prop where
  | leaf (entries : List (String × RawValue)) (key : String) (v : RawValue) :
      (key, v) ∈ entries → isTerminal v = true → HasPath entries [key] v
  | node (entries : List (String × RawValue)) (key : String)
      (sub : List (String × RawValue)) (path : List String) (v : RawValue) :
      (key, .obj sub) ∈ entries → HasPath sub path v →
      HasPath entries (key :: path) v

/-- The key the code actually produces for a path: the first segment is
joined with the supplied separator, all deeper segments with the default
`"."` (because the recursion does not forward the separator). -/
def flatKey (sep : String) : List String → String
  | [] => ""
  | [k] => k
  | k :: rest => k ++ sep ++ flatKey "." rest

/-- The key the specification describes for a path: all segments joined
with the same separator. -/
def joinedWith (sep : String) : List String → String
  | [] => ""
  | [k] => k
  | k :: rest => k ++ sep ++ joinedWith sep rest

theorem flatKey_dot (path : List String) : flatKey "." path = joinedWith "." path := by
  induction path with
  | nil => rfl
  | cons k rest ih =>
    cases rest with
    | nil => rfl
    | cons r rs => rw [flatKey, joinedWith, ih] <;> simp

theorem HasPath.ne_nil {entries : List (String × RawValue)} {path : List String}
    {v : RawValue} (h : HasPath entries path v) : path ≠ [] := by
  cases h <;> simp

theorem HasPath.terminal {entries : List (String × RawValue)} {path : List String}
    {v : RawValue} (h : HasPath entries path v) : isTerminal v = true := by
  induction h with
  | leaf _ _ _ _ ht => exact ht
  | node _ _ _ _ _ _ _ ih => exact ih

theorem HasPath.cons_weaken {rest : List (String × RawValue)} {path : List String}
    {v : RawValue} (hd : String × RawValue) (h : HasPath rest path v) :
    HasPath (hd :: rest) path v := by
  cases h with
  | leaf _ key v hmem ht => exact .leaf _ key v (List.mem_cons_of_mem hd hmem) ht
  | node _ key sub path v hmem hsub =>
      exact .node _ key sub path v (List.mem_cons_of_mem hd hmem) hsub

theorem flattenEntries_ok_iff (sep : String) (entries : List (String × RawValue)) :
    (∃ l, flattenEntries sep entries = .ok l) ↔ containsNull entries = false := by
  induction sep, entries using flattenEntries.induct with
  | case1 sep => simp [flattenEntries, containsNull]
  | case2 sep key sub rest e hsub ih1 =>
    have hcs : containsNull sub = true := by
      cases hc : containsNull sub
      · obtain ⟨l, hl⟩ := ih1.mpr hc
        rw [hsub] at hl
        cases hl
      · rfl
    simp [flattenEntries, containsNull, hsub, hcs]
  | case3 sep key sub rest r hsub e hrest ih1 ih2 =>
    have hcr : containsNull rest = true := by
      cases hc : containsNull rest
      · obtain ⟨l, hl⟩ := ih2.mpr hc
        rw [hrest] at hl
        cases hl
      · rfl
    simp [flattenEntries, containsNull, hsub, hrest, hcr]
  | case4 sep key sub rest r hsub r' hrest ih1 ih2 =>
    have hcs : containsNull sub = false := ih1.mp ⟨r, hsub⟩
    have hcr : containsNull rest = false := ih2.mp ⟨r', hrest⟩
    simp [flattenEntries, containsNull, hsub, hrest, hcs, hcr]
  | case5 sep k tail => simp [flattenEntries, containsNull]
  | case6 sep key v rest hobj hnull e hrest ih =>
    have hcr : containsNull rest = true := by
      cases hc : containsNull rest
      · obtain ⟨l, hl⟩ := ih.mpr hc
        rw [hrest] at hl
        cases hl
      · rfl
    cases v with
    | obj sub => exact absurd rfl (hobj sub)
    | null => exact absurd rfl hnull
    | str s => simp [flattenEntries, containsNull, hrest, hcr]
    | func f => simp [flattenEntries, containsNull, hrest, hcr]
  | case7 sep key v rest hobj hnull r hrest ih =>
    have hcr : containsNull rest = false := ih.mp ⟨r, hrest⟩
    cases v with
    | obj sub => exact absurd rfl (hobj sub)
    | null => exact absurd rfl hnull
    | str s => simp [flattenEntries, containsNull, hrest, hcr]
    | func f => simp [flattenEntries, containsNull, hrest, hcr]

theorem flatKey_singleton (sep k : String) : flatKey sep [k] = k := rfl

theorem flatKey_cons_cons (sep k p0 : String) (ps : List String) :
    flatKey sep (k :: p0 :: ps) = k ++ sep ++ flatKey "." (p0 :: ps) := rfl

/-- Characterization of the flat entry list produced by `flattenEntries`:
its entries are exactly the terminal leaves of the raw tree, keyed by
`flatKey` (first level joined with the supplied separator, deeper levels
with the default `"."`) and valued by `createTranslation`. -/
theorem flattenEntries_mem_spec (sep : String) (entries : List (String × RawValue)) :
    ∀ flat, flattenEntries sep entries = .ok flat →
      (∀ path v, HasPath entries path v →
          (flatKey sep path, createTranslation v) ∈ flat) ∧
      (∀ kv ∈ flat, ∃ path v, HasPath entries path v ∧
          kv.1 = flatKey sep path ∧ kv.2 = createTranslation v) := by
  induction sep, entries using flattenEntries.induct with
  | case1 sep =>
    intro flat hflat
    simp only [flattenEntries, Except.ok.injEq] at hflat
    subst hflat
    constructor
    · intro path v hp
      cases hp with
      | leaf _ _ _ hmem _ => exact absurd hmem (List.not_mem_nil _)
      | node _ _ _ _ _ hmem _ => exact absurd hmem (List.not_mem_nil _)
    · intro kv hkv
      exact absurd hkv (List.not_mem_nil kv)
  | case2 sep key sub rest e hsub ih1 =>
    intro flat hflat
    simp [flattenEntries, hsub] at hflat
  | case3 sep key sub rest d hsub e hrest ih1 ih2 =>
    intro flat hflat
    simp [flattenEntries, hsub, hrest] at hflat
  | case4 sep key sub rest d hsub r hrest ih1 ih2 =>
    intro flat hflat
    simp only [flattenEntries, hsub, hrest, Except.ok.injEq] at hflat
    subst hflat
    obtain ⟨fsub, bsub⟩ := ih1 d hsub
    obtain ⟨frest, brest⟩ := ih2 r hrest
    constructor
    · intro path v hp
      cases hp with
      | leaf _ key' v hmem ht =>
        rcases List.mem_cons.mp hmem with heq | hmem'
        · rw [Prod.mk.injEq] at heq
          obtain ⟨hk, hv⟩ := heq
          subst hv
          simp [isTerminal] at ht
        · exact List.mem_append_right _
            (frest [key'] v (.leaf _ _ _ hmem' ht))
      | node _ key' sub' path' v hmem hsub' =>
        rcases List.mem_cons.mp hmem with heq | hmem'
        · rw [Prod.mk.injEq] at heq
          obtain ⟨hk, hv⟩ := heq
          subst hk
          have hsubeq : sub' = sub := by
            injection hv
          subst hsubeq
          have hmemd := fsub path' v hsub'
          obtain ⟨p0, ps, rfl⟩ := List.exists_cons_of_ne_nil hsub'.ne_nil
          rw [flatKey_cons_cons]
          exact List.mem_append_left _
            (List.mem_map.mpr ⟨(flatKey "." (p0 :: ps), createTranslation v),
              hmemd, rfl⟩)
        · exact List.mem_append_right _
            (frest (key' :: path') v (.node _ _ _ _ _ hmem' hsub'))
    · intro kv hkv
      rcases List.mem_append.mp hkv with hin | hin
      · obtain ⟨kv', hkv', heq⟩ := List.mem_map.mp hin
        obtain ⟨path', v, hp, h1, h2⟩ := bsub kv' hkv'
        obtain ⟨p0, ps, rfl⟩ := List.exists_cons_of_ne_nil hp.ne_nil
        refine ⟨key :: p0 :: ps, v,
          .node _ _ _ _ _ (List.mem_cons_self _ _) hp, ?_, ?_⟩
        · rw [← heq, flatKey_cons_cons, ← h1]
        · rw [← heq, ← h2]
      · obtain ⟨path', v, hp, h1, h2⟩ := brest kv hin
        exact ⟨path', v, hp.cons_weaken _, h1, h2⟩
  | case5 sep k tail =>
    intro flat hflat
    simp [flattenEntries] at hflat
  | case6 sep key v rest hobj hnull e hrest ih =>
    intro flat hflat
    cases v with
    | obj sub => exact absurd rfl (hobj sub)
    | null => exact absurd rfl hnull
    | str s => simp [flattenEntries, hrest] at hflat
    | func f => simp [flattenEntries, hrest] at hflat
  | case7 sep key v rest hobj hnull r hrest ih =>
    intro flat hflat
    obtain ⟨frest, brest⟩ := ih r hrest
    have hterm : isTerminal v = true := by
      cases v with
      | obj sub => exact absurd rfl (hobj sub)
      | null => exact absurd rfl hnull
      | str s => rfl
      | func f => rfl
    have hflat' : flat = (key, createTranslation v) :: r := by
      cases v with
      | obj sub => exact absurd rfl (hobj sub)
      | null => exact absurd rfl hnull
      | str s =>
        simp only [flattenEntries, hrest, Except.ok.injEq] at hflat
        exact hflat.symm
      | func f =>
        simp only [flattenEntries, hrest, Except.ok.injEq] at hflat
        exact hflat.symm
    subst hflat'
    constructor
    · intro path v' hp
      cases hp with
      | leaf _ key' v' hmem ht =>
        rcases List.mem_cons.mp hmem with heq | hmem'
        · rw [Prod.mk.injEq] at heq
          obtain ⟨hk, hv⟩ := heq
          subst hk; subst hv
          rw [flatKey_singleton]
          exact List.mem_cons_self _ _
        · exact List.mem_cons_of_mem _ (frest [key'] v' (.leaf _ _ _ hmem' ht))
      | node _ key' sub' path' v' hmem hsub' =>
        rcases List.mem_cons.mp hmem with heq | hmem'
        · rw [Prod.mk.injEq] at heq
          obtain ⟨hk, hv⟩ := heq
          exact absurd hv.symm (hobj sub')
        · exact List.mem_cons_of_mem _
            (frest (key' :: path') v' (.node _ _ _ _ _ hmem' hsub'))
    · intro kv hkv
      rcases List.mem_cons.mp hkv with heq | hin
      · exact ⟨[key], v, .leaf _ _ _ (List.mem_cons_self _ _) hterm,
          by rw [heq, flatKey_singleton], by rw [heq]⟩
      · obtain ⟨path', v', hp, h1, h2⟩ := brest kv hin
        exact ⟨path', v', hp.cons_weaken _, h1, h2⟩

theorem jsGet_jsSpread_isSome {α : Type} {u : List (String × α)} {k : String}
    (h : ∃ e ∈ u, e.1 = k) :
    ∀ o : List (String × α), (jsGet (jsSpread o u) k).isSome = true := by
  induction u with
  | nil => obtain ⟨e, he, _⟩ := h; cases he
  | cons hd u' ih =>
    intro o
    by_cases hk : ∃ e ∈ u', e.1 = k
    · exact ih hk (jsSet o hd.1 hd.2)
    · have hnot : ∀ e ∈ u', e.1 ≠ k := by
        intro e he hek
        exact hk ⟨e, he, hek⟩
      obtain ⟨e, he, hek⟩ := h
      rcases List.mem_cons.mp he with rfl | he'
      · show (jsGet (jsSpread (jsSet o e.1 e.2) u') k).isSome = true
        rw [jsGet_jsSpread_of_not_key hnot, hek, jsGet_jsSet_self]
        rfl
      · exact absurd hek (hnot e he')

theorem exists_key_jsFromEntries {α : Type} {l : List (String × α)} {k : String}
    (h : ∃ e ∈ l, e.1 = k) : ∃ t, (k, t) ∈ jsFromEntries l := by
  have := jsGet_jsSpread_isSome h []
  obtain ⟨v, hv⟩ := Option.isSome_iff_exists.mp this
  exact ⟨v, jsGet_eq_some_elim hv⟩

/-! ### Claim C3 -/

/-- C3: with the default separator `"."`, `createDictionary` flattens every
null-free raw dictionary: the flattening succeeds, the produced flat
entries are exactly the terminal leaves — the entry for the value at path
`[a, b, c]` has key `"a.b.c"` (segments joined with `"."`) — and every such
key is a key of the resulting Dictionary; terminal string leaves are
wrapped into constant-returning translation functions and terminal function
leaves are used as-is (and the result's values are translation functions by
construction, with no nested objects remaining). -/
theorem createDictionary_default_flattening (entries : List (String × RawValue))
    (h : containsNull entries = false) :
    ∃ flat, flattenEntries "." entries = .ok flat ∧
      createDictionary entries "." = .ok (jsFromEntries flat) ∧
      (∀ path v, HasPath entries path v →
        (joinedWith "." path, createTranslation v) ∈ flat) ∧
      (∀ kv ∈ flat, ∃ path v, isTerminal v = true ∧ HasPath entries path v ∧
        kv.1 = joinedWith "." path ∧ kv.2 = createTranslation v) ∧
      (∀ path v, HasPath entries path v →
        ∃ t, (joinedWith "." path, t) ∈ jsFromEntries flat) ∧
      (∀ s, createTranslation (.str s) = fun _ => s) ∧
      (∀ f, createTranslation (.func f) = f) := by
  obtain ⟨flat, hflat⟩ := (flattenEntries_ok_iff "." entries).mpr h
  obtain ⟨fwd, bwd⟩ := flattenEntries_mem_spec "." entries flat hflat
  refine ⟨flat, hflat, by simp only [createDictionary, hflat]; rfl, ?_, ?_, ?_,
    fun s => rfl, fun f => rfl⟩
  · intro path v hp
    have := fwd path v hp
    rwa [flatKey_dot] at this
  · intro kv hkv
    obtain ⟨path, v, hp, h1, h2⟩ := bwd kv hkv
    exact ⟨path, v, hp.terminal, hp, by rw [h1, flatKey_dot], h2⟩
  · intro path v hp
    have hmem := fwd path v hp
    exact exists_key_jsFromEntries ⟨_, hmem, flatKey_dot path⟩

/-- C3 (witness): flattening the concrete null-free raw dictionary
`{a: {b: {c: "v"}}, hello: "saluton"}` with the default separator. -/
theorem createDictionary_default_flattening_witness :
    ∃ flat, flattenEntries "."
        [("a", RawValue.obj [("b", RawValue.obj [("c", RawValue.str "v")])]),
         ("hello", RawValue.str "saluton")] = .ok flat ∧
      createDictionary
        [("a", RawValue.obj [("b", RawValue.obj [("c", RawValue.str "v")])]),
         ("hello", RawValue.str "saluton")] "." = .ok (jsFromEntries flat) ∧
      (∀ path v, HasPath
          [("a", RawValue.obj [("b", RawValue.obj [("c", RawValue.str "v")])]),
           ("hello", RawValue.str "saluton")] path v →
        (joinedWith "." path, createTranslation v) ∈ flat) ∧
      (∀ kv ∈ flat, ∃ path v, isTerminal v = true ∧ HasPath
          [("a", RawValue.obj [("b", RawValue.obj [("c", RawValue.str "v")])]),
           ("hello", RawValue.str "saluton")] path v ∧
        kv.1 = joinedWith "." path ∧ kv.2 = createTranslation v) ∧
      (∀ path v, HasPath
          [("a", RawValue.obj [("b", RawValue.obj [("c", RawValue.str "v")])]),
           ("hello", RawValue.str "saluton")] path v →
        ∃ t, (joinedWith "." path, t) ∈ jsFromEntries flat) ∧
      (∀ s, createTranslation (.str s) = fun _ => s) ∧
      (∀ f, createTranslation (.func f) = f) :=
  createDictionary_default_flattening _ (by simp [containsNull])

/-! ### Claim C4 -/

/-- C4: the claim states that for every separator the key of a value at
path `[k1,...,kn]` is the `n` segments joined by that separator, including
at depth at least 2.  The recursive call `createDictionary(value)` does not
forward the separator, so with separator `"_"` the raw dictionary
`{a: {b: {c: "v"}}}` produces the single key `"a_b.c"` — the levels below
the first are joined with the default `"."` — instead of the claimed
`"a_b_c"`. -/
theorem createDictionary_separator_depth_bug :
    ∃ d, createDictionary
        [("a", RawValue.obj [("b", RawValue.obj [("c", RawValue.str "v")])])] "_"
        = .ok d ∧
      d.map Prod.fst = ["a_b.c"] ∧
      joinedWith "_" ["a", "b", "c"] = "a_b_c" ∧
      "a_b_c" ∉ d.map Prod.fst := by
  have h : flattenEntries "_"
      [("a", RawValue.obj [("b", RawValue.obj [("c", RawValue.str "v")])])]
      = .ok [("a_b.c", createTranslation (.str "v"))] := by
    simp [flattenEntries]
  refine ⟨jsFromEntries [("a_b.c", createTranslation (.str "v"))],
    by simp only [createDictionary, h]; rfl, rfl, rfl, by decide⟩

/-! ### Claim C10 -/

/-- C10: `createDictionary` treats every `typeof 'object'` value as a
subtree, so a raw dictionary containing `null` anywhere as a value throws
(`Object.entries(null)` raises a TypeError); when every leaf is a string or
a function and every subtree is a non-null object (i.e. no `null` occurs),
no throw occurs and a Dictionary is returned. -/
theorem createDictionary_null_behavior :
    (∀ (entries : List (String × RawValue)) (sep : String),
        containsNull entries = true → createDictionary entries sep = .error ()) ∧
    (∀ (entries : List (String × RawValue)) (sep : String),
        containsNull entries = false → ∃ d, createDictionary entries sep = .ok d) := by
  constructor
  · intro entries sep h
    cases hf : flattenEntries sep entries with
    | error e => cases e; simp only [createDictionary, hf]; rfl
    | ok l =>
      have hok := (flattenEntries_ok_iff sep entries).mp ⟨l, hf⟩
      rw [hok] at h
      cases h
  · intro entries sep h
    obtain ⟨l, hf⟩ := (flattenEntries_ok_iff sep entries).mpr h
    exact ⟨jsFromEntries l, by simp only [createDictionary, hf]; rfl⟩

/-- C10 (witness): a dictionary with a `null` leaf throws; a null-free
dictionary flattens successfully. -/
theorem createDictionary_null_behavior_witness :
    createDictionary [("x", RawValue.null)] "." = .error () ∧
    ∃ d, createDictionary [("hello", RawValue.str "saluton")] "." = .ok d :=
  ⟨createDictionary_null_behavior.1 _ "." (by simp [containsNull]),
    createDictionary_null_behavior.2 _ "." (by simp [containsNull])⟩

/-! ## `useTranslate` (src/providers/locale.tsx, lines 132-136) -/

/-- The translator function returned by `useTranslate`, for a mounted
dictionary accessor returning `dictionary`:
`(key, params) => dictionary()?.[key]?.(params) ?? key`. -/
def translate (dictionary : Option Dictionary) (key : String)
    (params : Option Params) : String :=
  ((dictionary.bind (fun d => jsGet d key)).map (fun f => f params)).getD key

/-! ### Claim C5 -/

/-- C5: if the key is bound in the current dictionary, `translate` applies
the bound translation function to the parameters; if the dictionary is
absent or the key is missing, it returns the key itself unchanged — it is a
total function (never an error) and the fallback is the lookup key, not a
blank string. -/
theorem translate_claim :
    (∀ (key : String) (params : Option Params),
        translate none key params = key) ∧
    (∀ (d : Dictionary) (key : String) (params : Option Params),
        jsGet d key = none → translate (some d) key params = key) ∧
    (∀ (d : Dictionary) (key : String) (params : Option Params) (f : Translation),
        jsGet d key = some f → translate (some d) key params = f params) := by
  refine ⟨fun key params => rfl, ?_, ?_⟩
  · intro d key params h
    simp [translate, h]
  · intro d key params f h
    simp [translate, h]

/-- A concrete parametrized translation used to witness C5. -/
def helloFn : Translation :=
  fun p => "Hello " ++ (((p.getD []).lookup "name").getD "")

/-- C5 (witness): on the empty dictionary the key echoes back; a bound
parametrized translation is applied to its parameter bag; a missing key
echoes back. -/
theorem translate_claim_witness :
    translate none "missing" none = "missing" ∧
    translate (some [("helloName", helloFn)]) "helloName"
      (some [("name", "world")]) = "Hello world" ∧
    translate (some [("helloName", helloFn)]) "missing" none = "missing" := by
  refine ⟨translate_claim.1 "missing" none, ?_, translate_claim.2.1 _ _ _ rfl⟩
  rw [translate_claim.2.2 [("helloName", helloFn)] "helloName"
    (some [("name", "world")]) helloFn rfl]
  rfl

/-! ## Context hooks (src/AppState.tsx, src/providers/color-scheme.tsx,
src/providers/theme.tsx, src/providers/locale.tsx)

`useContext(C)` returns the value provided by the nearest mounted provider,
or the context's default value when none is mounted.  A hook is embedded as
a function of that optional provided value; `undefined` is `none`. -/

/-- `AppState`: `{ colorScheme?: string, language?: string, theme?: string }`. -/
structure AppState where
  colorScheme : Option String
  language : Option String
  theme : Option String
deriving Repr, DecidableEq

/-- A JavaScript object value is always truthy, so `!context` is always
false on an `AppState` object. -/
def jsObjectIsFalsy (_ : AppState) : Bool := false

/-- `useTheme()` (src/providers/theme.tsx lines 112-118): the theme context
has no default value, so outside the provider tree `useContext` yields
`undefined` and `if (!context) throw new Error('ThemeContext not found')`
fires. -/
def useTheme (context : Option (Unit → Option Theme)) :
    Except String (Unit → Option Theme) :=
  match context with
  | none => .error "ThemeContext not found"
  | some c => .ok c

/-- `useLocaleContext()` (src/providers/locale.tsx lines 84-90): the locale
context (language signal accessor and dictionary resource) has no default
value; outside the provider tree the hook throws.  `useLanguage`,
`useDictionary` and `useTranslate` all call this hook first. -/
def useLocaleContext
    (context : Option ((Unit → Option String) × (Unit → Option Dictionary))) :
    Except String ((Unit → Option String) × (Unit → Option Dictionary)) :=
  match context with
  | none => .error "LocaleContext not found"
  | some c => .ok c

/-- `useColorScheme()` (src/providers/color-scheme.tsx): the color-scheme
context has no default value; outside the provider tree the hook throws. -/
def useColorScheme (context : Option (Unit → Option String)) :
    Except String (Unit → Option String) :=
  match context with
  | none => .error "ColorSchemeContext not found"
  | some c => .ok c

/-- `useAppState()` (src/AppState.tsx lines 58-71): `AppContext` is created
with the default value `{}` (`createContext<AppState>({})`), so outside the
provider tree `useContext` returns that default object; an object is always
truthy, hence the `if (!context) throw new Error('AppContext not found')`
guard never fires. -/
def useAppState (provided : Option AppState) : Except String AppState :=
  let context := provided.getD ⟨none, none, none⟩
  if jsObjectIsFalsy context then .error "AppContext not found" else .ok context

/-! ### Claim C6 -/

/-- C6 (counterexample): the claim states that accessing any provider's
hook outside its provider tree throws, including `useAppState`.  Outside
the tree `useContext(AppContext)` returns the context's default value `{}`,
which is truthy, so `useAppState` does not throw: it returns the empty
state. -/
theorem useAppState_outside_tree_counterexample :
    useAppState none = .ok ⟨none, none, none⟩ := rfl

/-- C6 (amended): `useTheme` (hence `useStyles`), `useLocaleContext` (hence
`useDictionary`/`useTranslate`) and `useColorScheme` each throw an error
naming the missing context when used outside their provider tree;
`useAppState` does not throw, because `AppContext` was created with the
default value `{}` and an object is always truthy — it returns the empty
state instead. -/
theorem missing_context_hooks :
    useTheme none = .error "ThemeContext not found" ∧
    useLocaleContext none = .error "LocaleContext not found" ∧
    useColorScheme none = .error "ColorSchemeContext not found" ∧
    useAppState none = .ok ⟨none, none, none⟩ :=
  ⟨rfl, rfl, rfl, rfl⟩

/-! ## Storage bridge (src/lib/storage.ts, lines 36-48) -/

/-- `getInitialValue(storage, key, defaultValue, deserialize)`:

```
try {
  const value = storage.getItem(key);
  return value ? deserialize(value) : defaultValue;
} catch {
  return defaultValue;
}
```

`storage.getItem` yields `null` (`none`) for an absent key; the truthiness
test `value ?` is false for `null` and also for the empty string; a
throwing deserializer is embedded as `Except.error` and swallowed by the
catch. -/
def getInitialValue {T : Type} (storage : List (String × String)) (key : String)
    (defaultValue : T) (deserialize : String → Except Unit T) : T :=
  match jsGet storage key with
  | none => defaultValue
  | some value =>
      if value = "" then defaultValue
      else
        match deserialize value with
        | .ok t => t
        | .error _ => defaultValue

/-! ### Claim C7 -/

/-- C7 (counterexample): the claim states that the initial value equals
`deserialize(stored string)` whenever the key is present and deserialization
succeeds.  With the key present but bound to the empty string, the
truthiness test `value ?` is false, so the code returns the default value
even though the deserializer would have succeeded (`deserialize("") = ok 1`,
yet the result is `0`). -/
theorem getInitialValue_present_key_counterexample :
    jsGet [("k", "")] "k" = some "" ∧
    (fun _ : String => (Except.ok 1 : Except Unit Nat)) "" = .ok 1 ∧
    getInitialValue [("k", "")] "k" (0 : Nat) (fun _ => .ok 1) = 0 ∧
    getInitialValue [("k", "")] "k" (0 : Nat) (fun _ => .ok 1) ≠ 1 :=
  ⟨rfl, rfl, rfl, by decide⟩

/-- C7 (amended): the initial value equals `deserialize(stored string)` when
the key is present with a non-empty stored string and deserialization
succeeds; it equals the default value when the key is absent, when the
stored string is empty (the truthiness test treats `""` like a missing
value), or when deserialization throws — and a deserialization error is
swallowed, never surfaced. -/
theorem getInitialValue_spec {T : Type} :
    (∀ (storage : List (String × String)) (key : String) (d : T)
        (f : String → Except Unit T),
        jsGet storage key = none → getInitialValue storage key d f = d) ∧
    (∀ (storage : List (String × String)) (key : String) (d : T)
        (f : String → Except Unit T),
        jsGet storage key = some "" → getInitialValue storage key d f = d) ∧
    (∀ (storage : List (String × String)) (key : String) (d : T)
        (f : String → Except Unit T) (v : String) (t : T),
        jsGet storage key = some v → v ≠ "" → f v = .ok t →
        getInitialValue storage key d f = t) ∧
    (∀ (storage : List (String × String)) (key : String) (d : T)
        (f : String → Except Unit T) (v : String),
        jsGet storage key = some v → f v = .error () →
        getInitialValue storage key d f = d) := by
  refine ⟨?_, ?_, ?_, ?_⟩
  · intro storage key d f h
    simp [getInitialValue, h]
  · intro storage key d f h
    simp [getInitialValue, h]
  · intro storage key d f v t h hv hf
    simp [getInitialValue, h, hv, hf]
  · intro storage key d f v h hf
    by_cases hv : v = ""
    · subst hv; simp [getInitialValue, h]
    · simp [getInitialValue, h, hv, hf]

/-- C7 (witness): the four cases at concrete inputs — absent key, empty
stored string, successful deserialization, throwing deserialization. -/
theorem getInitialValue_spec_witness :
    getInitialValue [] "k" (7 : Nat) (fun _ => .ok 5) = 7 ∧
    getInitialValue [("k", "")] "k" (7 : Nat) (fun _ => .ok 5) = 7 ∧
    getInitialValue [("k", "5")] "k" (7 : Nat) (fun _ => .ok 5) = 5 ∧
    getInitialValue [("k", "bad")] "k" (7 : Nat) (fun _ => .error ()) = 7 :=
  ⟨getInitialValue_spec.1 [] "k" 7 _ rfl,
    getInitialValue_spec.2.1 [("k", "")] "k" 7 _ rfl,
    getInitialValue_spec.2.2.1 [("k", "5")] "k" 7 _ "5" 5 rfl (by decide) rfl,
    getInitialValue_spec.2.2.2 [("k", "bad")] "k" 7 _ "bad" rfl rfl⟩

/-! ## Async resource ordering (C9) -/

/-- State of an asynchronously populated reactive resource: the generation
of the most recent request and the currently exposed value. -/
structure ResourceState (V : Type) where
  gen : Nat
  value : Option V
deriving Repr, DecidableEq

/-- Events driving a resource: the driving key changes (`request`, starting
a fetch at the new generation), or a fetch started at generation `g`
settles with a value. -/
inductive ResourceEvent (V : Type) where
  | request
  | settle (g : Nat) (v : V)
deriving Repr, DecidableEq

/-- Modelled from the spec: the scheduling of `createResource`, the
reactive-library primitive through which `LocaleProvider` (and the theme
provider variant) fetch dictionaries and themes; its implementation is not
part of this repository's sources.  Spec §5 requires that when the driving
key changes again before a prior fetch resolves, the earlier fetch is
ignored when it settles (last-requested-wins, not last-resolved-wins), and
spec §9 describes the realization: a generation counter — each request
increments the generation, and a settling fetch is applied only if its
generation is still the current one. -/
def resourceStep {V : Type} (s : ResourceState V) :
    ResourceEvent V → ResourceState V
  | .request => { s with gen := s.gen + 1 }
  | .settle g v => if g = s.gen then { s with value := some v } else s

/-- Run a resource from a state through a sequence of events. -/
def resourceRun {V : Type} (s : ResourceState V)
    (events : List (ResourceEvent V)) : ResourceState V :=
  events.foldl resourceStep s

theorem resourceRun_stable {V : Type} {post : List (ResourceEvent V)} :
    ∀ s : ResourceState V,
      (∀ e ∈ post, ∀ g w, e = .settle g w → g ≠ s.gen) →
      ResourceEvent.request ∉ post →
      resourceRun s post = s := by
  induction post with
  | nil => intro s _ _; rfl
  | cons e es ih =>
    intro s h hr
    cases e with
    | request => exact absurd (List.mem_cons_self _ _) hr
    | settle g w =>
      have hg : g ≠ s.gen := h _ (List.mem_cons_self _ _) g w rfl
      show resourceRun (resourceStep s (.settle g w)) es = s
      have hstep : resourceStep s (.settle g w) = s := by
        simp [resourceStep, hg]
      rw [hstep]
      exact ih s (fun e' he' => h e' (List.mem_cons_of_mem _ he'))
        (fun hreq => hr (List.mem_cons_of_mem _ hreq))

/-! ### Claim C9 -/

/-- C9: last-requested-wins.  After any prefix of activity, once the fetch
belonging to the current (most recent) generation settles with value `v`,
the resource equals `v`, and it still equals `v` after any number of
later-settling fetches from overtaken generations; moreover a settling
fetch whose generation is not current never changes the resource state at
all. -/
theorem resource_last_requested_wins {V : Type} (s0 : ResourceState V)
    (pre post : List (ResourceEvent V)) (v : V)
    (hpost : ∀ e ∈ post, ∀ g w, e = .settle g w → g ≠ (resourceRun s0 pre).gen)
    (hnoreq : ResourceEvent.request ∉ post) :
    (resourceRun s0
        (pre ++ .settle (resourceRun s0 pre).gen v :: post)).value = some v ∧
    (∀ (s : ResourceState V) (g : Nat) (w : V), g ≠ s.gen →
      resourceStep s (.settle g w) = s) := by
  constructor
  · rw [resourceRun, List.foldl_append]
    show (resourceRun
      (resourceStep (resourceRun s0 pre) (.settle (resourceRun s0 pre).gen v))
      post).value = some v
    have hstep : resourceStep (resourceRun s0 pre)
        (.settle (resourceRun s0 pre).gen v)
        = { resourceRun s0 pre with value := some v } := by
      simp [resourceStep]
    rw [hstep]
    rw [resourceRun_stable { resourceRun s0 pre with value := some v } hpost hnoreq]
  · intro s g w hg
    simp [resourceStep, hg]

/-- C9 (witness): two rapid language changes (generations 1 and 2); the
fetch for generation 2 settles with `"dict-fr"`, then the overtaken fetch
for generation 1 settles late with `"dict-en"` — the resource still shows
`"dict-fr"`; and an out-of-generation settle leaves a state unchanged. -/
theorem resource_last_requested_wins_witness :
    (resourceRun (⟨0, none⟩ : ResourceState String)
        ([.request, .request] ++
          .settle (resourceRun (⟨0, none⟩ : ResourceState String)
            [.request, .request]).gen "dict-fr" :: [.settle 1 "dict-en"])).value
      = some "dict-fr" ∧
    resourceStep (⟨2, some "dict-fr"⟩ : ResourceState String)
      (.settle 1 "dict-en") = ⟨2, some "dict-fr"⟩ :=
  ⟨(resource_last_requested_wins ⟨0, none⟩ [.request, .request]
      [.settle 1 "dict-en"] "dict-fr"
      (by
        intro e he g w heq
        have he' : e = ResourceEvent.settle 1 "dict-en" := by simpa using he
        subst he'
        injection heq with h1 h2
        subst h1
        decide)
      (by decide)).1,
    (resource_last_requested_wins (⟨0, none⟩ : ResourceState String) [] []
      "dict-fr" (by simp) (by simp)).2 ⟨2, some "dict-fr"⟩ 1 "dict-en"
      (by decide)⟩

end Solid
